import Mathlib

/-!
Verification of the cake_shop backend (src/main.py) against its
natural-language specification.

The program is shallowly embedded: the in-memory catalog `cakes_db` is a
`List CakeRec`, each CRUD endpoint is a Lean function over that list, the
chat endpoint and the AI-fallback helper are total functions parameterised
by the behaviour of the external Gemini call, and the two-phase locking of
`add_cake` (one lock acquisition inside `get_next_id`, a second one around
the append) is modelled by an interleaving semantics with one atomic step
per critical section.
-/

/-- Models a Python `float` by its `str()` rendering: the program only ever
stores prices and interpolates them into f-strings, never computes with
them, so the printed form is the whole observable behaviour. -/
structure PyFloat where
  render : String
deriving DecidableEq, Repr

/-- The mutable fields of a cake, i.e. the pydantic `Cake` model of
src/main.py (name, description, price, stock) — the request body of the
create and update endpoints, which never carries an id. -/
structure CakeFields where
  name : String
  description : Option String
  price : PyFloat
  stock : Int
deriving DecidableEq, Repr

/-- A stored catalog record: a dict `{"id": ..., "name": ..., "description":
..., "price": ..., "stock": ...}` of the `cakes_db` list. -/
structure CakeRec where
  id : Int
  name : String
  description : Option String
  price : PyFloat
  stock : Int
deriving DecidableEq, Repr

/-- `{"id": new_id, **cake.dict()}` — a record built from an id and the
request fields. -/
def mkCake (nid : Int) (f : CakeFields) : CakeRec :=
  ⟨nid, f.name, f.description, f.price, f.stock⟩

/-- Python `max(xs, default=0)`: the maximum of the list, or `0` when the
list is empty. -/
def pyMaxDefault0 : List Int → Int
  | [] => 0
  | x :: xs => xs.foldl max x

/-- `get_next_id` of src/main.py:
`max([c["id"] for c in cakes_db], default=0) + 1` (the lock around the read
is irrelevant to the sequential value). -/
def get_next_id (db : List CakeRec) : Int :=
  pyMaxDefault0 (db.map (·.id)) + 1

/-- The initial `cakes_db` list of src/main.py. -/
def cakes_db_init : List CakeRec :=
  [⟨1, "Медовик", some "Торт с медом", ⟨"5500.0"⟩, 4⟩,
   ⟨2, "Молочная девочка", some "Нежный молочный торт", ⟨"6000.0"⟩, 3⟩]

/-- `add_cake` of src/main.py: compute `new_id = get_next_id()`, build
`new_cake = {"id": new_id, **cake.dict()}`, append it, and return it.
Returns (returned record, catalog after the append). -/
def add_cake (cake : CakeFields) (db : List CakeRec) : CakeRec × List CakeRec :=
  let new_cake := mkCake (get_next_id db) cake
  (new_cake, db ++ [new_cake])

/-- `get_cake` of src/main.py: return the first record whose `"id"` equals
`cake_id`; `none` models `HTTPException(404)`. -/
def get_cake (cake_id : Int) : List CakeRec → Option CakeRec
  | [] => none
  | c :: rest => if c.id = cake_id then some c else get_cake cake_id rest

/-- `update_cake` of src/main.py: scan for the first record whose `"id"`
equals `cake_id`; replace it in place by `{"id": cake_id, **cake.dict()}`
and return it (`some (updated, new catalog)`); `none` models the 404. -/
def update_cake (cake_id : Int) (cake : CakeFields) :
    List CakeRec → Option (CakeRec × List CakeRec)
  | [] => none
  | c :: rest =>
    if c.id = cake_id then
      some (mkCake cake_id cake, mkCake cake_id cake :: rest)
    else
      match update_cake cake_id cake rest with
      | some (u, rest2) => some (u, c :: rest2)
      | none => none

/-- `delete_cake` of src/main.py: `cakes_db.remove(c)` for the first record
`c` with the matching id (records before it have a different id, hence are
not equal to `c`, so `remove` deletes exactly that record); `none` models
the 404. -/
def delete_cake (cake_id : Int) : List CakeRec → Option (List CakeRec)
  | [] => none
  | c :: rest =>
    if c.id = cake_id then some rest
    else
      match delete_cake cake_id rest with
      | some rest2 => some (c :: rest2)
      | none => none

/-- The catalog after an `update_cake` call: on the 404 path the Python
handler raises before touching the list, so the state is unchanged. -/
def update_state (cake_id : Int) (cake : CakeFields) (db : List CakeRec) : List CakeRec :=
  match update_cake cake_id cake db with
  | some r => r.2
  | none => db

/-- The catalog after a `delete_cake` call: on the 404 path the list is
untouched. -/
def delete_state (cake_id : Int) (db : List CakeRec) : List CakeRec :=
  match delete_cake cake_id db with
  | some db2 => db2
  | none => db

/-- A sequence of creates starting from catalog `db`; returns the assigned
ids in order. -/
def runCreates : List CakeFields → List CakeRec → List Int
  | [], _ => []
  | f :: fs, db => (add_cake f db).1.id :: runCreates fs (add_cake f db).2

/-- A store operation: a POST /cakes body, or a DELETE /cakes/\x7bid\x7d. -/
inductive Op where
  | create : CakeFields → Op
  | delete : Int → Op
deriving DecidableEq, Repr

/-- One operation against the catalog: the new catalog, plus the assigned
id when the operation was a create. -/
def applyOp (db : List CakeRec) : Op → List CakeRec × Option Int
  | .create f => ((add_cake f db).2, some (add_cake f db).1.id)
  | .delete cid => (delete_state cid db, none)

/-- A sequence of create/delete operations; returns the final catalog and,
per operation, the id it assigned (creates) or `none` (deletes). -/
def runOps : List CakeRec → List Op → List CakeRec × List (Option Int)
  | db, [] => (db, [])
  | db, op :: rest =>
    ((runOps (applyOp db op).1 rest).1, (applyOp db op).2 :: (runOps (applyOp db op).1 rest).2)

-- ------------- strings: Python lower / strip / substring -------------

/-- Python `str.lower()` on one character, restricted to the scripts this
program uses: ASCII Latin `A`–`Z` and Cyrillic `А`–`Я` map down by `0x20`,
`Ё` maps to `ё`; every other character is unchanged. -/
def pyLowerChar (c : Char) : Char :=
  if 0x41 ≤ c.toNat ∧ c.toNat ≤ 0x5A then Char.ofNat (c.toNat + 0x20)
  else if 0x410 ≤ c.toNat ∧ c.toNat ≤ 0x42F then Char.ofNat (c.toNat + 0x20)
  else if c.toNat = 0x401 then Char.ofNat 0x451
  else c

/-- Python `s.lower()`. -/
def pyLower (s : String) : String :=
  ⟨s.data.map pyLowerChar⟩

/-- The whitespace characters stripped by Python `str.strip()` (the ASCII
ones; no other whitespace occurs in this program's strings). -/
def isPySpace (c : Char) : Bool :=
  c == ' ' || c == '\t' || c == '\n' || c == '\r' || c == '\x0b' || c == '\x0c'

/-- Python `s.strip()`: drop whitespace from both ends. -/
def pyStrip (s : String) : String :=
  ⟨((s.data.dropWhile isPySpace).reverse.dropWhile isPySpace).reverse⟩

def isPrefixB : List Char → List Char → Bool
  | [], _ => true
  | _ :: _, [] => false
  | x :: xs, y :: ys => x == y && isPrefixB xs ys

def isInfixB (needle : List Char) : List Char → Bool
  | [] => isPrefixB needle []
  | y :: ys => isPrefixB needle (y :: ys) || isInfixB needle ys

/-- Python substring membership `needle in hay`. -/
def strContainsB (hay needle : String) : Bool :=
  isInfixB needle.data hay.data

-- ------------- chat endpoint and AI fallback -------------

/-- The text interpolated for the description in the local reply:
`cake.get('description','')` returns the stored value — which is `None`
for a record created without a description, since the key is always
present — and the f-string renders `None` as the text `"None"`. -/
def descText : Option String → String
  | some d => d
  | none => "None"

/-- The local reply of the `chatbot` handler:
`f"Да, есть {name}. {description}. Цена: {price}₸. В наличии: {stock} шт."`. -/
def localReply (c : CakeRec) : String :=
  "Да, есть " ++ c.name ++ ". " ++ descText c.description ++ ". Цена: "
    ++ c.price.render ++ "₸. В наличии: " ++ toString c.stock ++ " шт."

/-- The local-search loop of the `chatbot` handler: the first cake whose
lowercased name is a substring of the lowercased user message. -/
def findLocal (name_lower : String) : List CakeRec → Option CakeRec
  | [] => none
  | c :: rest =>
    if strContainsB name_lower (pyLower c.name) then some c
    else findLocal name_lower rest

/-- The outcome of one `genai` text-generation call: either it raised an
exception, or it produced a response object, modelled by
`getattr(response, "text", None)` and `str(response)`. -/
inductive CallResult where
  | raised : CallResult
  | ok : Option String → String → CallResult
deriving Repr

def CANDIDATE_MODELS : List String :=
  ["gemini-1.5-flash", "gemini-1.5-pro", "gemini-1.0"]

def AI_NOT_CONFIGURED : String :=
  "Извините, AI пока не настроен (нет GEMINI_API_KEY)."

def AI_UNAVAILABLE : String :=
  "Извините, сейчас AI недоступен. Попробуйте позже."

/-- The prompt built by `ask_gemini_short`. -/
def gemini_prompt (user_message : String) (max_sentences : Nat) : String :=
  "Ты — вежливый консультант в кондитерской. Очень кратко (1–"
    ++ toString max_sentences
    ++ " предложения) ответь на запрос клиента: \"" ++ user_message ++ "\""

/-- The model loop of `ask_gemini_short`: per model, a raised exception is
swallowed and the loop advances; otherwise `text` is
`getattr(response, "text", None)`, replaced by `str(response)` when falsy,
and a truthy `text` is returned stripped, a falsy one advances the loop. -/
def tryModels (call : String → CallResult) : List String → Option String
  | [] => none
  | m :: rest =>
    match call m with
    | .raised => tryModels call rest
    | .ok t s =>
      let text := match t with
        | some x => if x = "" then s else x
        | none => s
      if text = "" then tryModels call rest else some (pyStrip text)

/-- `ask_gemini_short` of src/main.py. `gemini_api_key` tells whether a
credential is configured (`GEMINI_API_KEY` truthy); `call` is the
behaviour of the external `genai` generate-content call, given the model
name and the prompt. -/
def ask_gemini_short (user_message : String) (max_sentences : Nat)
    (gemini_api_key : Bool) (call : String → String → CallResult) : String :=
  if !gemini_api_key then AI_NOT_CONFIGURED
  else
    match tryModels (fun m => call m (gemini_prompt user_message max_sentences))
        CANDIDATE_MODELS with
    | some t => t
    | none => AI_UNAVAILABLE

/-- A response of the `chatbot` handler: `HTTPException(400, detail)`, or a
JSON body `{"source": source, "reply": reply}`. -/
inductive ChatResult where
  | badRequest : String → ChatResult
  | reply : String → String → ChatResult
deriving DecidableEq, Repr

/-- The `chatbot` handler of src/main.py. `(msg.message or "")` is the
message itself (pydantic guarantees a `str`), stripped; an empty result is
a 400; otherwise the local containment search over `cakes_db` runs first,
and on a miss the AI fallback is consulted with `max_sentences=2`. -/
def chatbot (message : String) (db : List CakeRec) (gemini_api_key : Bool)
    (call : String → String → CallResult) : ChatResult :=
  let user_message := pyStrip message
  if user_message = "" then ChatResult.badRequest "Сообщение пустое"
  else
    match findLocal (pyLower user_message) db with
    | some cake => ChatResult.reply "local" (localReply cake)
    | none => ChatResult.reply "ai" (ask_gemini_short user_message 2 gemini_api_key call)

-- ------------- interleaving model of add_cake's two lock sections -------------

/-- Where a single `add_cake` request stands: before `get_next_id`, holding
a computed id but not yet having appended, or finished. `get_next_id`
acquires and releases `_db_lock` by itself, and the append acquires it
again, so each of the two is one atomic step — the gap between them is a
real interleaving point in src/main.py. -/
inductive Phase where
  | start : Phase
  | computed : Int → Phase
  | done : Phase
deriving DecidableEq, Repr

/-- One in-flight `add_cake` request: its body and its progress. -/
structure TaskState where
  fields : CakeFields
  phase : Phase
deriving Repr

/-- One atomic step of one request: `start` runs `get_next_id` (first lock
section), `computed nid` appends `{"id": nid, **cake.dict()}` (second lock
section), `done` does nothing. -/
def stepTask (db : List CakeRec) (t : TaskState) : List CakeRec × TaskState :=
  match t.phase with
  | .start => (db, { t with phase := .computed (get_next_id db) })
  | .computed nid => (db ++ [mkCake nid t.fields], { t with phase := .done })
  | .done => (db, t)

/-- Run a schedule: at each tick the named task takes its next atomic
step. -/
def runSchedule : List CakeRec → List TaskState → List Nat → List CakeRec
  | db, _, [] => db
  | db, tasks, i :: rest =>
    match tasks.get? i with
    | none => runSchedule db tasks rest
    | some t => runSchedule (stepTask db t).1 (tasks.set i (stepTask db t).2) rest

/-- A sample request body, used for concrete instances. -/
def sampleFields : CakeFields :=
  ⟨"Наполеон", some "Слоёный торт", ⟨"4800.0"⟩, 2⟩

-- ------------- helper lemmas on pyMaxDefault0 -------------

theorem left_le_foldl_max : ∀ (xs : List Int) (x : Int), x ≤ xs.foldl max x
  | [], _ => le_refl _
  | y :: ys, x => le_trans (le_max_left x y) (left_le_foldl_max ys (max x y))

theorem mem_le_foldl_max : ∀ (xs : List Int) (x a : Int), a ∈ x :: xs → a ≤ xs.foldl max x := by
  intro xs
  induction xs with
  | nil =>
    intro x a ha
    rcases List.mem_singleton.mp ha with h
    exact le_of_eq h
  | cons y ys ih =>
    intro x a ha
    rcases List.mem_cons.mp ha with h | h
    · exact le_trans (le_of_eq h)
        (le_trans (le_max_left x y) (left_le_foldl_max ys (max x y)))
    · rcases List.mem_cons.mp h with h2 | h2
      · exact le_trans (le_of_eq h2)
          (le_trans (le_max_right x y) (left_le_foldl_max ys (max x y)))
      · exact ih (max x y) a (List.mem_cons.mpr (Or.inr h2))

/-- Every member of a list is at most its Python max. -/
theorem mem_le_pyMax {l : List Int} {a : Int} (h : a ∈ l) : a ≤ pyMaxDefault0 l := by
  cases l with
  | nil => exact absurd h (List.not_mem_nil a)
  | cons x xs => exact mem_le_foldl_max xs x a h

theorem foldl_max_mem : ∀ (xs : List Int) (x : Int), xs.foldl max x = x ∨ xs.foldl max x ∈ xs
  | [], _ => Or.inl rfl
  | y :: ys, x => by
    rcases foldl_max_mem ys (max x y) with h | h
    · rcases max_choice x y with hm | hm
      · exact Or.inl (by simpa [hm] using h)
      · exact Or.inr (List.mem_cons.mpr (Or.inl (by simpa [hm] using h)))
    · exact Or.inr (List.mem_cons.mpr (Or.inr h))

/-- The Python max of a list is `0` or one of its members. -/
theorem pyMax_zero_or_mem (l : List Int) :
    pyMaxDefault0 l = 0 ∨ pyMaxDefault0 l ∈ l := by
  cases l with
  | nil => exact Or.inl rfl
  | cons x xs =>
    rcases foldl_max_mem xs x with h | h
    · exact Or.inr (List.mem_cons.mpr (Or.inl h))
    · exact Or.inr (List.mem_cons.mpr (Or.inr h))

/-- `get_next_id` is strictly above every id in the catalog. -/
theorem id_lt_next {db : List CakeRec} {c : CakeRec} (h : c ∈ db) :
    c.id < get_next_id db := by
  have h1 : c.id ≤ pyMaxDefault0 (db.map (·.id)) :=
    mem_le_pyMax (List.mem_map_of_mem (·.id) h)
  simpa [get_next_id] using lt_of_le_of_lt h1 (lt_add_one _)


-- ------------- substring machinery -------------

theorem isPrefixB_iff : ∀ (a b : List Char), isPrefixB a b = true ↔ a <+: b
  | [], b => by simp [isPrefixB]
  | x :: xs, [] => by simp [isPrefixB]
  | x :: xs, y :: ys => by
    simp [isPrefixB, List.cons_prefix_cons, isPrefixB_iff xs ys]

theorem isInfixB_iff : ∀ (a b : List Char), isInfixB a b = true ↔ a <:+: b
  | a, [] => by
    simp [isInfixB, isPrefixB_iff]
  | a, y :: ys => by
    rw [isInfixB, Bool.or_eq_true, isPrefixB_iff, isInfixB_iff a ys, List.infix_cons_iff]

/-- `needle in hay` holds whenever the character list of the needle occurs
contiguously inside the character list of the haystack. -/
theorem strContainsB_of_infix {hay needle : String}
    (h : needle.data <:+: hay.data) : strContainsB hay needle = true :=
  (isInfixB_iff _ _).mpr h

theorem infix_prepend {α : Type} {u b : List α} (a : List α) (h : u <:+: b) :
    u <:+: a ++ b := by
  obtain ⟨s, t, hst⟩ := h
  exact ⟨a ++ s, t, by rw [← hst]; simp⟩

theorem infix_self_append {α : Type} (u t : List α) : u <:+: u ++ t :=
  ⟨[], t, by simp⟩

-- ------------- structural lemmas for the CRUD handlers -------------

theorem get_cake_none_iff : ∀ (db : List CakeRec) (cid : Int),
    get_cake cid db = none ↔ ∀ c ∈ db, c.id ≠ cid := by
  intro db cid
  induction db with
  | nil => simp [get_cake]
  | cons c rest ih =>
    by_cases h : c.id = cid
    · simp [get_cake, h]
    · simp [get_cake, h, ih]

theorem get_cake_some : ∀ (db : List CakeRec) (cid : Int) (c : CakeRec),
    get_cake cid db = some c → c ∈ db ∧ c.id = cid := by
  intro db
  induction db with
  | nil => intro cid c h; cases h
  | cons d rest ih =>
    intro cid c h
    by_cases hd : d.id = cid
    · rw [get_cake, if_pos hd] at h
      have : d = c := by simpa using h
      exact ⟨List.mem_cons.mpr (Or.inl this.symm), this ▸ hd⟩
    · rw [get_cake, if_neg hd] at h
      obtain ⟨hmem, hid⟩ := ih cid c h
      exact ⟨List.mem_cons.mpr (Or.inr hmem), hid⟩

theorem update_cake_none_iff : ∀ (db : List CakeRec) (cid : Int) (f : CakeFields),
    update_cake cid f db = none ↔ ∀ c ∈ db, c.id ≠ cid := by
  intro db
  induction db with
  | nil => intro cid f; simp [update_cake]
  | cons c rest ih =>
    intro cid f
    by_cases h : c.id = cid
    · simp [update_cake, h]
    · cases hrec : update_cake cid f rest with
      | none => simpa [update_cake, h, hrec] using (ih cid f).mp hrec
      | some p =>
        have hex : ∃ x ∈ rest, x.id = cid := by
          by_contra hno
          push_neg at hno
          rw [(ih cid f).mpr hno] at hrec
          cases hrec
        simpa [update_cake, h, hrec] using hex

theorem update_cake_some : ∀ (db : List CakeRec) (cid : Int) (f : CakeFields)
    (u : CakeRec) (db2 : List CakeRec),
    update_cake cid f db = some (u, db2) →
      u = mkCake cid f ∧ ∃ l1 c l2, db = l1 ++ c :: l2 ∧ c.id = cid
        ∧ (∀ x ∈ l1, x.id ≠ cid) ∧ db2 = l1 ++ u :: l2 := by
  intro db
  induction db with
  | nil => intro cid f u db2 h; cases h
  | cons c rest ih =>
    intro cid f u db2 h
    by_cases hc : c.id = cid
    · rw [update_cake, if_pos hc] at h
      have h1 : mkCake cid f = u ∧ mkCake cid f :: rest = db2 := by simpa using h
      refine ⟨h1.1.symm, [], c, rest, rfl, hc, by simp, ?_⟩
      rw [← h1.2, h1.1]
      simp
    · rw [update_cake, if_neg hc] at h
      cases hrec : update_cake cid f rest with
      | none => rw [hrec] at h; cases h
      | some p =>
        obtain ⟨u', r2⟩ := p
        rw [hrec] at h
        have h1 : u' = u ∧ c :: r2 = db2 := by simpa using h
        obtain ⟨hu, l1, c', l2, hdb, hcid, hne, hdb2⟩ := ih cid f u' r2 hrec
        refine ⟨h1.1 ▸ hu, c :: l1, c', l2, by rw [hdb]; rfl, hcid, ?_, ?_⟩
        · intro x hx
          rcases List.mem_cons.mp hx with hx | hx
          · rw [hx]; exact hc
          · exact hne x hx
        · rw [← h1.2, hdb2, h1.1]
          rfl

theorem delete_cake_none_iff : ∀ (db : List CakeRec) (cid : Int),
    delete_cake cid db = none ↔ ∀ c ∈ db, c.id ≠ cid := by
  intro db
  induction db with
  | nil => intro cid; simp [delete_cake]
  | cons c rest ih =>
    intro cid
    by_cases h : c.id = cid
    · simp [delete_cake, h]
    · cases hrec : delete_cake cid rest with
      | none => simpa [delete_cake, h, hrec] using (ih cid).mp hrec
      | some p =>
        have hex : ∃ x ∈ rest, x.id = cid := by
          by_contra hno
          push_neg at hno
          rw [(ih cid).mpr hno] at hrec
          cases hrec
        simpa [delete_cake, h, hrec] using hex

theorem delete_cake_some : ∀ (db : List CakeRec) (cid : Int) (db2 : List CakeRec),
    delete_cake cid db = some db2 →
      ∃ l1 c l2, db = l1 ++ c :: l2 ∧ c.id = cid
        ∧ (∀ x ∈ l1, x.id ≠ cid) ∧ db2 = l1 ++ l2 := by
  intro db
  induction db with
  | nil => intro cid db2 h; cases h
  | cons c rest ih =>
    intro cid db2 h
    by_cases hc : c.id = cid
    · rw [delete_cake, if_pos hc] at h
      have h1 : rest = db2 := by simpa using h
      exact ⟨[], c, rest, rfl, hc, by simp, by rw [← h1]; rfl⟩
    · rw [delete_cake, if_neg hc] at h
      cases hrec : delete_cake cid rest with
      | none => rw [hrec] at h; cases h
      | some r2 =>
        rw [hrec] at h
        have h1 : c :: r2 = db2 := by simpa using h
        obtain ⟨l1, c', l2, hdb, hcid, hne, hdb2⟩ := ih cid r2 hrec
        refine ⟨c :: l1, c', l2, by rw [hdb]; rfl, hcid, ?_, by rw [← h1, hdb2]; rfl⟩
        intro x hx
        rcases List.mem_cons.mp hx with hx | hx
        · rw [hx]; exact hc
        · exact hne x hx

-- ------------- lemmas for the AI loop and create sequences -------------

theorem tryModels_all_raised : ∀ (call : String → CallResult) (ms : List String),
    (∀ m ∈ ms, call m = CallResult.raised) → tryModels call ms = none := by
  intro call ms
  induction ms with
  | nil => intro _; rfl
  | cons m rest ih =>
    intro h
    have hm := h m (List.mem_cons_self m rest)
    rw [tryModels, hm]
    exact ih fun x hx => h x (List.mem_cons.mpr (Or.inr hx))

/-- Every id assigned by a pure create sequence is strictly above the
Python max of the starting catalog. -/
theorem runCreates_mem_gt : ∀ (fs : List CakeFields) (db : List CakeRec) (x : Int),
    x ∈ runCreates fs db → pyMaxDefault0 (db.map (·.id)) < x := by
  intro fs
  induction fs with
  | nil => intro db x hx; cases hx
  | cons f fs ih =>
    intro db x hx
    rcases List.mem_cons.mp hx with hx | hx
    · rw [hx]
      show pyMaxDefault0 (db.map (·.id)) < (add_cake f db).1.id
      exact lt_add_one _
    · have hmem : (add_cake f db).1 ∈ (add_cake f db).2 := by simp [add_cake]
      have hnext : (add_cake f db).1.id ≤ pyMaxDefault0 ((add_cake f db).2.map (·.id)) :=
        mem_le_pyMax (List.mem_map_of_mem (fun c : CakeRec => c.id) hmem)
      have hlt : pyMaxDefault0 (db.map (·.id)) < (add_cake f db).1.id := lt_add_one _
      exact lt_trans (lt_of_lt_of_le hlt hnext) (ih (add_cake f db).2 x hx)

-- ------------- lemmas for the chat local search -------------

/-- `findLocal` returns the first record, in catalog iteration order, whose
lowercased name is contained in the lowercased message. -/
theorem findLocal_first_match : ∀ (lowMsg : String) (db : List CakeRec) (cake : CakeRec),
    findLocal lowMsg db = some cake →
      ∃ l1 l2, db = l1 ++ cake :: l2
        ∧ strContainsB lowMsg (pyLower cake.name) = true
        ∧ ∀ x ∈ l1, strContainsB lowMsg (pyLower x.name) = false := by
  intro lowMsg db
  induction db with
  | nil => intro cake h; cases h
  | cons d rest ih =>
    intro cake h
    cases hd : strContainsB lowMsg (pyLower d.name) with
    | true =>
      rw [findLocal, if_pos hd] at h
      have hdc : d = cake := by simpa using h
      exact ⟨[], rest, by simp [hdc], hdc ▸ hd, by simp⟩
    | false =>
      rw [findLocal, if_neg (by simp [hd])] at h
      obtain ⟨l1, l2, hdb, hck, hall⟩ := ih cake h
      refine ⟨d :: l1, l2, by rw [hdb]; rfl, hck, ?_⟩
      intro x hx
      rcases List.mem_cons.mp hx with hx | hx
      · rw [hx]; exact hd
      · exact hall x hx

/-- The character list of the local reply, fully right-associated. -/
theorem localReply_data (c : CakeRec) :
    (localReply c).data
      = "Да, есть ".data ++ (c.name.data ++ (". ".data ++ ((descText c.description).data
          ++ (". Цена: ".data ++ (c.price.render.data ++ ("₸. В наличии: ".data
          ++ ((toString c.stock).data ++ " шт.".data))))))) := by
  simp [localReply, String.data_append]

theorem localReply_contains_name (c : CakeRec) :
    strContainsB (localReply c) c.name = true := by
  apply strContainsB_of_infix
  rw [localReply_data]
  exact infix_prepend _ (infix_self_append _ _)

theorem localReply_contains_desc (c : CakeRec) :
    strContainsB (localReply c) (descText c.description) = true := by
  apply strContainsB_of_infix
  rw [localReply_data]
  exact infix_prepend _ (infix_prepend _ (infix_prepend _ (infix_self_append _ _)))

theorem localReply_contains_price (c : CakeRec) :
    strContainsB (localReply c) c.price.render = true := by
  apply strContainsB_of_infix
  rw [localReply_data]
  exact infix_prepend _ (infix_prepend _ (infix_prepend _ (infix_prepend _
    (infix_prepend _ (infix_self_append _ _)))))

theorem localReply_contains_stock (c : CakeRec) :
    strContainsB (localReply c) (toString c.stock) = true := by
  apply strContainsB_of_infix
  rw [localReply_data]
  exact infix_prepend _ (infix_prepend _ (infix_prepend _ (infix_prepend _
    (infix_prepend _ (infix_prepend _ (infix_prepend _ (infix_self_append _ _)))))))

-- ------------- the claims -------------

/-- C1: `add_cake` assigns the new product the id `(max existing id, or 0
when the catalog is empty) + 1`, appends the record, and returns the stored
record carrying that id; consequently any sequence of sequential creates
assigns ids in strictly increasing order — each assigned id is strictly
greater than every previously assigned one. -/
theorem C1_create_assigns_monotone_ids :
    (∀ (db : List CakeRec) (f : CakeFields),
        (add_cake f db).1.id = pyMaxDefault0 (db.map (·.id)) + 1
          ∧ (add_cake f db).1 = mkCake (get_next_id db) f
          ∧ (add_cake f db).2 = db ++ [(add_cake f db).1])
      ∧ ∀ (fs : List CakeFields) (db : List CakeRec),
          (runCreates fs db).Pairwise (· < ·) := by
  constructor
  · intro db f
    exact ⟨rfl, rfl, rfl⟩
  · intro fs
    induction fs with
    | nil => intro db; exact List.Pairwise.nil
    | cons f fs ih =>
      intro db
      show ((add_cake f db).1.id :: runCreates fs (add_cake f db).2).Pairwise (· < ·)
      refine List.pairwise_cons.mpr ⟨?_, ih (add_cake f db).2⟩
      intro x hx
      have h1 := runCreates_mem_gt fs (add_cake f db).2 x hx
      have hmem : (add_cake f db).1 ∈ (add_cake f db).2 := by simp [add_cake]
      have hnext := mem_le_pyMax (List.mem_map_of_mem (fun c : CakeRec => c.id) hmem)
      exact lt_of_le_of_lt hnext h1

/-- C2 counterexample: starting from an empty catalog, a create assigns
id 1, deleting id 1 and creating again assigns id 1 a second time — the
per-operation trace of assigned ids is `[some 1, none, some 1]`, so an id
assigned and then deleted IS assigned again by a later create. -/
theorem C2_counterexample_deleted_id_reused :
    (runOps [] [Op.create sampleFields, Op.delete 1, Op.create sampleFields]).2
      = [some 1, none, some 1] := by decide

/-- C2 as amended: a create assigns `get_next_id`, which is strictly
greater than every id present in the catalog at that moment; an id whose
deletion leaves behind some record with an id at least as large is
therefore never reassigned, but a deleted maximal id is reassigned by the
very next create (see the counterexample). -/
theorem C2_amended_create_id_gt_current :
    ∀ (db : List CakeRec) (f : CakeFields),
      (add_cake f db).1.id = get_next_id db
        ∧ ∀ c ∈ db, c.id < (add_cake f db).1.id := by
  intro db f
  exact ⟨rfl, fun c hc => id_lt_next hc⟩

theorem C2_amended_witness :
    (add_cake sampleFields cakes_db_init).1.id = get_next_id cakes_db_init
      ∧ (⟨1, "Медовик", some "Торт с медом", ⟨"5500.0"⟩, 4⟩ : CakeRec).id
          < (add_cake sampleFields cakes_db_init).1.id :=
  ⟨(C2_amended_create_id_gt_current cakes_db_init sampleFields).1,
   (C2_amended_create_id_gt_current cakes_db_init sampleFields).2 _ (by decide)⟩

/-- C3: on a non-empty message the chat handler returns the first catalog
record (in iteration order) whose lowercased name is a substring of the
lowercased message, with source `"local"` and a reply embedding the name,
description, price and stock; in particular the message
"Есть ли у вас Медовик?" against the seeded catalog answers locally with
the price `5500.0` and the stock `4` inside the reply. -/
theorem C3_chat_local_hit :
    (∀ (lowMsg : String) (db : List CakeRec) (cake : CakeRec),
        findLocal lowMsg db = some cake →
          ∃ l1 l2, db = l1 ++ cake :: l2
            ∧ strContainsB lowMsg (pyLower cake.name) = true
            ∧ ∀ x ∈ l1, strContainsB lowMsg (pyLower x.name) = false)
      ∧ (∀ (msg : String) (db : List CakeRec) (key : Bool)
            (call : String → String → CallResult) (cake : CakeRec),
          pyStrip msg ≠ "" →
          findLocal (pyLower (pyStrip msg)) db = some cake →
            chatbot msg db key call = ChatResult.reply "local" (localReply cake)
              ∧ strContainsB (localReply cake) cake.name = true
              ∧ strContainsB (localReply cake) (descText cake.description) = true
              ∧ strContainsB (localReply cake) cake.price.render = true
              ∧ strContainsB (localReply cake) (toString cake.stock) = true)
      ∧ ∀ (key : Bool) (call : String → String → CallResult),
          chatbot "Есть ли у вас Медовик?" cakes_db_init key call
              = ChatResult.reply "local"
                  (localReply ⟨1, "Медовик", some "Торт с медом", ⟨"5500.0"⟩, 4⟩)
            ∧ strContainsB
                (localReply ⟨1, "Медовик", some "Торт с медом", ⟨"5500.0"⟩, 4⟩)
                "5500.0" = true
            ∧ strContainsB
                (localReply ⟨1, "Медовик", some "Торт с медом", ⟨"5500.0"⟩, 4⟩)
                "4" = true := by
  refine ⟨findLocal_first_match, ?_, ?_⟩
  · intro msg db key call cake hne hfind
    refine ⟨?_, localReply_contains_name cake, localReply_contains_desc cake,
      localReply_contains_price cake, localReply_contains_stock cake⟩
    simp [chatbot, hne, hfind]
  · intro key call
    exact ⟨by rfl, by decide, by decide⟩

theorem C3_witness :
    chatbot "Есть ли у вас Медовик?" cakes_db_init false (fun _ _ => CallResult.raised)
      = ChatResult.reply "local"
          (localReply ⟨1, "Медовик", some "Торт с медом", ⟨"5500.0"⟩, 4⟩) :=
  ((C3_chat_local_hit.2.1 "Есть ли у вас Медовик?" cakes_db_init false
      (fun _ _ => CallResult.raised)
      ⟨1, "Медовик", some "Торт с медом", ⟨"5500.0"⟩, 4⟩
      (by decide) (by decide)).1)

/-- C4: the AI fallback never propagates a fault — it is a total function
into strings. With no credential configured it returns the fixed "AI not
configured" text at once; a per-model raised exception is swallowed and the
loop advances to the next candidate identifier; and when every candidate
model raises, it returns the fixed "AI unavailable, try later" text. -/
theorem C4_ai_fallback_never_faults :
    ∀ (msg : String) (n : Nat) (call : String → String → CallResult),
      ask_gemini_short msg n false call = AI_NOT_CONFIGURED
        ∧ ((∀ m ∈ CANDIDATE_MODELS, call m (gemini_prompt msg n) = CallResult.raised) →
            ask_gemini_short msg n true call = AI_UNAVAILABLE)
        ∧ ∀ (g : String → CallResult) (m : String) (ms : List String),
            g m = CallResult.raised → tryModels g (m :: ms) = tryModels g ms := by
  intro msg n call
  refine ⟨rfl, ?_, ?_⟩
  · intro h
    have hnone := tryModels_all_raised (fun m => call m (gemini_prompt msg n))
      CANDIDATE_MODELS h
    simp [ask_gemini_short, hnone]
  · intro g m ms h
    simp [tryModels, h]

theorem C4_witness :
    ask_gemini_short "Есть ли доставка?" 2 true (fun _ _ => CallResult.raised)
      = AI_UNAVAILABLE :=
  (C4_ai_fallback_never_faults "Есть ли доставка?" 2
    (fun _ _ => CallResult.raised)).2.1 (fun _ _ => rfl)

/-- C5: `update_cake` fails with the 404 exactly when no record carries the
id; otherwise the returned record is `{"id": cake_id, **cake.dict()}` —
the id is preserved and every mutable field (name, description, price,
stock) is replaced by the supplied one — it is stored in the resulting
catalog, and the catalog's id sequence is unchanged. -/
theorem C5_update_replaces_fields_preserves_id :
    ∀ (db : List CakeRec) (cid : Int) (f : CakeFields),
      (update_cake cid f db = none ↔ ∀ c ∈ db, c.id ≠ cid)
        ∧ ∀ u db2, update_cake cid f db = some (u, db2) →
            u.id = cid ∧ u.name = f.name ∧ u.description = f.description
              ∧ u.price = f.price ∧ u.stock = f.stock ∧ u ∈ db2
              ∧ db2.map (·.id) = db.map (·.id) := by
  intro db cid f
  refine ⟨update_cake_none_iff db cid f, ?_⟩
  intro u db2 h
  obtain ⟨hu, l1, c, l2, hdb, hcid, hne, hdb2⟩ := update_cake_some db cid f u db2 h
  subst hu
  refine ⟨rfl, rfl, rfl, rfl, rfl, ?_, ?_⟩
  · rw [hdb2]
    exact List.mem_append_right _ (List.mem_cons_self _ _)
  · rw [hdb2, hdb]
    simp [mkCake, hcid]

theorem C5_witness :
    update_cake 99 sampleFields cakes_db_init = none
      ∧ (mkCake 1 sampleFields).id = 1 :=
  ⟨(C5_update_replaces_fields_preserves_id cakes_db_init 99 sampleFields).1.mpr (by decide),
   ((C5_update_replaces_fields_preserves_id cakes_db_init 1 sampleFields).2
      (mkCake 1 sampleFields)
      (mkCake 1 sampleFields
        :: [⟨2, "Молочная девочка", some "Нежный молочный торт", ⟨"6000.0"⟩, 3⟩])
      (by decide)).1⟩

/-- C6: `get_cake` returns a record exactly when one carries the id (and
then a member with that id), failing with the 404 otherwise; `delete_cake`
fails with the 404 exactly when no record carries the id; and — the ids
being unique — after a successful delete, a get of the same id yields the
404. -/
theorem C6_get_delete_not_found :
    ∀ (db : List CakeRec) (cid : Int),
      (get_cake cid db = none ↔ ∀ c ∈ db, c.id ≠ cid)
        ∧ (∀ c, get_cake cid db = some c → c ∈ db ∧ c.id = cid)
        ∧ (delete_cake cid db = none ↔ ∀ c ∈ db, c.id ≠ cid)
        ∧ ((db.map (·.id)).Nodup →
            ∀ db2, delete_cake cid db = some db2 → get_cake cid db2 = none) := by
  intro db cid
  refine ⟨get_cake_none_iff db cid, fun c => get_cake_some db cid c,
    delete_cake_none_iff db cid, ?_⟩
  intro hnd db2 h
  obtain ⟨l1, c, l2, hdb, hcid, hne, hdb2⟩ := delete_cake_some db cid db2 h
  rw [hdb2]
  apply (get_cake_none_iff _ _).mpr
  intro x hx
  rw [hdb] at hnd
  have hnd2 : (l1.map (·.id) ++ c.id :: l2.map (·.id)).Nodup := by simpa using hnd
  have hnotin : c.id ∉ l1.map (·.id) ++ l2.map (·.id) :=
    (List.nodup_cons.mp (List.nodup_middle.mp hnd2)).1
  rcases List.mem_append.mp hx with hx | hx
  · exact hne x hx
  · intro hxeq
    apply hnotin
    apply List.mem_append_right
    have hm : x.id ∈ l2.map (·.id) := List.mem_map_of_mem (fun c : CakeRec => c.id) hx
    rw [hcid, ← hxeq]
    exact hm

theorem C6_witness :
    get_cake 1 [(⟨2, "Молочная девочка", some "Нежный молочный торт", ⟨"6000.0"⟩, 3⟩ : CakeRec)]
        = none
      ∧ delete_cake 99 cakes_db_init = none :=
  ⟨(C6_get_delete_not_found cakes_db_init 1).2.2.2 (by decide) _ (by decide),
   (C6_get_delete_not_found cakes_db_init 99).2.2.1.mpr (by decide)⟩

/-- C7: a message that strips to empty is rejected with the 400 "Сообщение
пустое" before the local search or the AI fallback runs: the result is the
same for every catalog, credential state and external-call behaviour. -/
theorem C7_empty_message_rejected :
    ∀ (msg : String) (db : List CakeRec) (key : Bool)
      (call : String → String → CallResult),
      pyStrip msg = "" →
      chatbot msg db key call = ChatResult.badRequest "Сообщение пустое" := by
  intro msg db key call h
  simp [chatbot, h]

theorem C7_witness :
    chatbot "" cakes_db_init false (fun _ _ => CallResult.raised)
      = ChatResult.badRequest "Сообщение пустое" :=
  C7_empty_message_rejected "" cakes_db_init false (fun _ _ => CallResult.raised) rfl

/-- C8: pairwise-distinct ids are an invariant of the store: each of
create (`add_cake`), update (`update_cake`) and delete (`delete_cake`),
run sequentially from a catalog with pairwise-distinct ids, yields a
catalog with pairwise-distinct ids. -/
theorem C8_id_uniqueness_invariant :
    ∀ db : List CakeRec, (db.map (·.id)).Nodup →
      (∀ f, ((add_cake f db).2.map (·.id)).Nodup)
        ∧ (∀ cid f u db2, update_cake cid f db = some (u, db2) →
            (db2.map (·.id)).Nodup)
        ∧ (∀ cid db2, delete_cake cid db = some db2 →
            (db2.map (·.id)).Nodup) := by
  intro db hnd
  refine ⟨?_, ?_, ?_⟩
  · intro f
    have hmap : (add_cake f db).2.map (·.id)
        = db.map (·.id) ++ [(add_cake f db).1.id] := by
      simp [add_cake]
    rw [hmap]
    apply List.Nodup.append hnd (List.nodup_singleton _)
    intro x hx hx2
    obtain ⟨c, hc, hcx⟩ := List.mem_map.mp hx
    have hxeq : x = get_next_id db := by simpa using hx2
    exact absurd (hcx.trans hxeq) (ne_of_lt (id_lt_next hc))
  · intro cid f u db2 h
    obtain ⟨hu, l1, c, l2, hdb, hcid, hne, hdb2⟩ := update_cake_some db cid f u db2 h
    have hmap : db2.map (·.id) = db.map (·.id) := by
      rw [hdb2, hdb, hu]
      simp [mkCake, hcid]
    rw [hmap]
    exact hnd
  · intro cid db2 h
    obtain ⟨l1, c, l2, hdb, hcid, hne, hdb2⟩ := delete_cake_some db cid db2 h
    have hsub : List.Sublist db2 db := by
      rw [hdb2, hdb]
      exact (List.sublist_cons_self c l2).append_left l1
    exact List.Nodup.sublist (hsub.map (fun c : CakeRec => c.id)) hnd

theorem C8_witness :
    ((add_cake sampleFields cakes_db_init).2.map (·.id)).Nodup :=
  (C8_id_uniqueness_invariant cakes_db_init (by decide)).1 sampleFields

/-- C9 (refuting the claimed mechanism): `add_cake` does NOT hold the lock
across the id decision and the insertion — `get_next_id` acquires and
releases `_db_lock`, and the append reacquires it — so two concurrent
creates against an empty catalog, interleaved so that both run
`get_next_id` before either appends (schedule 0,1,0,1), both receive id 1:
the resulting catalog has ids `[1, 1]`, a duplicate, not `{1, 2}`. The
fully serialized schedule 0,0,1,1 of the same two requests yields `[1, 2]`. -/
theorem C9_interleaved_creates_duplicate_id :
    ((runSchedule [] [⟨sampleFields, .start⟩, ⟨sampleFields, .start⟩] [0, 1, 0, 1]).map (·.id)
          = [1, 1]
        ∧ ¬ ((runSchedule [] [⟨sampleFields, .start⟩, ⟨sampleFields, .start⟩]
              [0, 1, 0, 1]).map (·.id)).Nodup)
      ∧ (runSchedule [] [⟨sampleFields, .start⟩, ⟨sampleFields, .start⟩] [0, 0, 1, 1]).map (·.id)
          = [1, 2] :=
  ⟨⟨by decide, by decide⟩, by decide⟩

/-- C10: frame and atomicity at the store boundary — a successful
`update_cake` replaces the first matching record in place, keeping its
position and leaving every other record (and the length) unchanged, while
an `update_cake` or `delete_cake` that 404s leaves the catalog exactly as
it was (`get_cake` is read-only by construction: it returns a record
without producing a state). -/
theorem C10_update_frame_effect :
    ∀ (db : List CakeRec) (cid : Int) (f : CakeFields),
      (update_cake cid f db = none → update_state cid f db = db)
        ∧ (delete_cake cid db = none → delete_state cid db = db)
        ∧ ∀ u db2, update_cake cid f db = some (u, db2) →
            ∃ l1 c l2, db = l1 ++ c :: l2 ∧ c.id = cid
              ∧ (∀ x ∈ l1, x.id ≠ cid)
              ∧ db2 = l1 ++ u :: l2 ∧ db2.length = db.length := by
  intro db cid f
  refine ⟨?_, ?_, ?_⟩
  · intro h
    simp [update_state, h]
  · intro h
    simp [delete_state, h]
  · intro u db2 h
    obtain ⟨hu, l1, c, l2, hdb, hcid, hne, hdb2⟩ := update_cake_some db cid f u db2 h
    exact ⟨l1, c, l2, hdb, hcid, hne, hdb2, by rw [hdb2, hdb]; simp⟩

theorem C10_witness :
    update_state 99 sampleFields cakes_db_init = cakes_db_init :=
  (C10_update_frame_effect cakes_db_init 99 sampleFields).1 (by decide)
